import Mathlib

/-!
# Shallow embedding of `cpptimer.h` (class `CppTimer`)

The C++ class keeps four pieces of state:
  * `tics      : std::map<(std::string × unsigned int), time_point>` — in-flight start times,
  * `data      : std::map<std::string, std::tuple<double,double,unsigned long>>` — persistent
    per-tag statistics `(mean, second field, count)` (`std::get<0/1/2>`),
  * `tags      : std::vector<std::string>` and `durations : std::vector<double>` — the
    completed-measurement list, and
  * `verbose   : bool`.

Modelling choices:
  * `std::map`s are modelled as key-unique association lists (`List (κ × ν)`) with
    lookup / insert-or-assign / erase.  Iteration order of a `std::map` is sorted by key;
    the association list iterates in insertion order.  No theorem below depends on the
    iteration order of a map, only on its key/value content and entry count.
  * `double` values (time points in nanoseconds and durations) are modelled as exact
    rationals `ℚ`; the spec's numerical claims are stated over exact arithmetic.
  * `unsigned long int` counts are modelled as `ℕ`.  The only subtraction, in
    `std::max(count - 1, one)` at the store step, is performed in C++ on an unsigned value
    that is ≥ 1 there (the tag being stored has at least one folded measurement), where
    unsigned subtraction and `ℕ` truncated subtraction agree.
  * the external `warn(msg)` capability (from `chameleon.h`) is modelled by returning the
    list of messages a call emits, in program order.
  * the inner aggregation loop (`for j < tags.size() ... durations[j]`) walks the two
    vectors in lockstep; it is modelled as a fold over `tags.zip durations`.  The two
    vectors have equal length in every reachable state (proved below), which is exactly
    the in-bounds condition for `durations[j]`.
-/

/-- Interval key: `(tag, thread id)` — `std::pair<std::string, unsigned int>`. -/
abbrev Keypair := String × ℕ

/-- First-match lookup in an association list (`std::map::find`). -/
def lookupKV {κ ν : Type} [DecidableEq κ] : List (κ × ν) → κ → Option ν
  | [], _ => none
  | p :: rest, k => if p.1 = k then some p.2 else lookupKV rest k

/-- Insert-or-assign (`std::map::operator[] = v`): replaces the first binding of `k`
in place, otherwise appends a new binding. -/
def insertKV {κ ν : Type} [DecidableEq κ] : List (κ × ν) → κ → ν → List (κ × ν)
  | [], k, v => [(k, v)]
  | p :: rest, k, v => if p.1 = k then (k, v) :: rest else p :: insertKV rest k v

/-- Erase the first binding of `k` (`std::map::erase`). -/
def eraseKV {κ ν : Type} [DecidableEq κ] : List (κ × ν) → κ → List (κ × ν)
  | [], _ => []
  | p :: rest, k => if p.1 = k then rest else p :: eraseKV rest k

/-- The whole state of a `CppTimer` object. -/
structure Timer where
  tics : List (Keypair × ℚ)
  data : List (String × (ℚ × ℚ × ℕ))
  tags : List String
  durations : List ℚ
  verbose : Bool
deriving DecidableEq

/-- A freshly constructed `CppTimer(verbose)`: all containers empty. -/
def initTimer (verbose : Bool) : Timer :=
  { tics := [], data := [], tags := [], durations := [], verbose := verbose }

/-- `tic(tag)` on thread `tid` at clock reading `now`: `tics[key] = hr_clock::now()`.
The source's `tic` contains no `warn` call and touches nothing else. -/
def tic (tag : String) (tid : ℕ) (now : ℚ) (s : Timer) : Timer :=
  { s with tics := insertKV s.tics (tag, tid) now }

/-- The warning `toc` builds when the key is not found (lines 73–76 of the source). -/
def tocMissingMsg (tag : String) : String :=
  "Timer \"" ++ (tag ++ ("\" not started yet. \n" ++
    ("Use tic(\"" ++ (tag ++ "\") to start the timer."))))

/-- `toc(tag)` on thread `tid` at clock reading `now`.  If the key is in flight:
append the elapsed duration and the tag, erase the key.  Otherwise: no state change,
and a warning naming the tag when `verbose`.  Returns the new state and the warnings
emitted. -/
def toc (tag : String) (tid : ℕ) (now : ℚ) (s : Timer) : Timer × List String :=
  match lookupKV s.tics (tag, tid) with
  | none =>
      (s, if s.verbose then [tocMissingMsg tag] else [])
  | some start =>
      ({ s with
          durations := s.durations ++ [now - start],
          tics := eraseKV s.tics (tag, tid),
          tags := s.tags ++ [tag] }, [])

/-- The warning `aggregate` emits per still-running timer (lines 120–121). -/
def aggNotStoppedMsg (tag : String) : String :=
  "Timer \"" ++ (tag ++ ("\" not stopped yet. \n" ++
    ("Use toc(\"" ++ (tag ++ "\") to stop the timer."))))

/-- One body of the inner `aggregate` loop (lines 160–164): Welford's online update of
`(mean, sst, count)` with a new duration `d`. -/
def welfordStep (acc : ℚ × ℚ × ℕ) (d : ℚ) : ℚ × ℚ × ℕ :=
  let count : ℕ := acc.2.2 + 1
  let delta : ℚ := d - acc.1
  let mean : ℚ := acc.1 + delta / (count : ℚ)
  let sst : ℚ := acc.2.1 + delta * (d - mean)
  (mean, sst, count)

/-- The inner `aggregate` loop (lines 156–166): fold every completed measurement whose
tag matches into the accumulator, in list order. -/
def foldTag (tag : String) (meas : List (String × ℚ)) (init : ℚ × ℚ × ℕ) : ℚ × ℚ × ℕ :=
  meas.foldl (fun acc p => if p.1 = tag then welfordStep acc p.2 else acc) init

/-- Reading the persistent record for `tag` (lines 142–153): `(0,0,0)` when absent,
else the stored tuple read as `(mean, sst, count)`. -/
def initStats (d : List (String × (ℚ × ℚ × ℕ))) (tag : String) : ℚ × ℚ × ℕ :=
  match lookupKV d tag with
  | none => (0, 0, 0)
  | some r => r

/-- The store step (line 170): `data[tag] = (mean, sst / max(count-1, 1), count)`. -/
def storeStats (r : ℚ × ℚ × ℕ) : ℚ × ℚ × ℕ :=
  (r.1, r.2.1 / ((max (r.2.2 - 1) 1 : ℕ) : ℚ), r.2.2)

/-- Processing of one unique tag by `aggregate` (lines 133–171). -/
def aggTag (meas : List (String × ℚ)) (d : List (String × (ℚ × ℚ × ℕ)))
    (tag : String) : List (String × (ℚ × ℚ × ℕ)) :=
  insertKV d tag (storeStats (foldTag tag meas (initStats d tag)))

/-- `std::unique` on a sorted vector: drop adjacent duplicates. -/
def dedupAdj : List String → List String
  | [] => []
  | [a] => [a]
  | a :: b :: rest => if a = b then dedupAdj (b :: rest) else a :: dedupAdj (b :: rest)

/-- Lines 128–131: `unique_tags` = sort the tags, then remove adjacent duplicates. -/
def uniqueTags (l : List String) : List String :=
  dedupAdj (l.insertionSort (· ≤ ·))

/-- `aggregate()` (lines 111–177): warn about every still-in-flight timer when verbose,
fold the completed measurements into `data` one unique tag at a time, clear the
completed-measurement vectors, and return `data`.  Result: (new state, returned table,
warnings). -/
def aggregate (s : Timer) : Timer × List (String × (ℚ × ℚ × ℕ)) × List String :=
  let warns := if s.verbose then s.tics.map (fun t => aggNotStoppedMsg t.1.1) else []
  let meas := s.tags.zip s.durations
  let newData := (uniqueTags s.tags).foldl (aggTag meas) s.data
  ({ s with tags := [], durations := [], data := newData }, newData, warns)

/-- `reset()` (lines 179–185): clear every container; `verbose` is untouched. -/
def reset (s : Timer) : Timer :=
  { s with tics := [], durations := [], tags := [], data := [] }

/-- One external call to the timer.  `tic`/`toc` carry the calling thread id and the
clock reading `hr_clock::now()` observed during the call. -/
inductive Op
  | tic (tag : String) (tid : ℕ) (now : ℚ)
  | toc (tag : String) (tid : ℕ) (now : ℚ)
  | agg
  | reset
deriving DecidableEq

/-- State transition of one call (warnings and return value dropped). -/
def step (s : Timer) : Op → Timer
  | Op.tic tag tid now => tic tag tid now s
  | Op.toc tag tid now => (toc tag tid now s).1
  | Op.agg => (aggregate s).1
  | Op.reset => reset s

/-- Run a call sequence from a state. -/
def run (s : Timer) (ops : List Op) : Timer :=
  ops.foldl step s

/-- Number of occurrences of `t` in a tag list. -/
def occ (t : String) (l : List String) : ℕ :=
  (l.filter (fun x => x = t)).length

/-- The count field of the record stored for `tag`, `0` when no record exists. -/
def dataCount (d : List (String × (ℚ × ℚ × ℕ))) (tag : String) : ℕ :=
  match lookupKV d tag with
  | none => 0
  | some r => r.2.2

/-- Ghost instrumentation: alongside the state, track for every tag how many completed
measurements have been folded into the persistent table since construction or the last
`reset` (an `aggregate` folds every pending measurement; `reset` forgets everything). -/
def stepG (p : Timer × (String → ℕ)) (op : Op) : Timer × (String → ℕ) :=
  match op with
  | Op.agg => ((aggregate p.1).1, fun t => p.2 t + occ t p.1.tags)
  | Op.reset => (reset p.1, fun _ => 0)
  | _ => (step p.1 op, p.2)

/-- Instrumented run. -/
def runG (p : Timer × (String → ℕ)) (ops : List Op) : Timer × (String → ℕ) :=
  ops.foldl stepG p

/-- Two-pass reference mean from the spec: the arithmetic mean of the list. -/
def listMean (l : List ℚ) : ℚ :=
  l.sum / (l.length : ℚ)

/-- Two-pass reference from the spec: sum of squared deviations from the mean. -/
def twoPassSst (l : List ℚ) : ℚ :=
  (l.map (fun d => (d - listMean l) ^ 2)).sum

/-- The invariant behind the count claim: the vectors have equal length and, for every
tag, a persistent record exists iff the ghost fold counter is positive, and its count
field equals the ghost fold counter. -/
def InvCG (s : Timer) (g : String → ℕ) : Prop :=
  s.tags.length = s.durations.length ∧
  ∀ tag, ((lookupKV s.data tag).isSome ↔ 0 < g tag) ∧ dataCount s.data tag = g tag

/-- Keys of an association list are pairwise distinct.  Holds for every list that
models a `std::map` in a reachable state. -/
def keysNodup {κ ν : Type} (l : List (κ × ν)) : Prop :=
  (l.map Prod.fst).Nodup

section AssocLemmas

variable {κ ν : Type} [DecidableEq κ]

theorem lookupKV_insertKV_self (l : List (κ × ν)) (k : κ) (v : ν) :
    lookupKV (insertKV l k v) k = some v := by
  induction l with
  | nil => simp [insertKV, lookupKV]
  | cons p rest ih =>
      by_cases h : p.1 = k
      · simp [insertKV, lookupKV, h]
      · simp [insertKV, lookupKV, h, ih]

theorem lookupKV_insertKV_ne (l : List (κ × ν)) (k k' : κ) (v : ν) (h : k' ≠ k) :
    lookupKV (insertKV l k v) k' = lookupKV l k' := by
  have hkk : ¬(k = k') := fun hh => h (Eq.symm hh)
  induction l with
  | nil => simp [insertKV, lookupKV, hkk]
  | cons p rest ih =>
      by_cases hp : p.1 = k
      · subst hp
        simp [insertKV, lookupKV, hkk]
      · simp [insertKV, lookupKV, hp, ih]

theorem isSome_lookupKV_insertKV (l : List (κ × ν)) (k k' : κ) (v : ν)
    (h : (lookupKV l k').isSome) : (lookupKV (insertKV l k v) k').isSome := by
  by_cases hk : k' = k
  · subst hk; simp [lookupKV_insertKV_self]
  · rwa [lookupKV_insertKV_ne l k k' v hk]

theorem keys_insertKV (l : List (κ × ν)) (k : κ) (v : ν) (a : κ)
    (h : a ∈ (insertKV l k v).map Prod.fst) : a ∈ l.map Prod.fst ∨ a = k := by
  induction l with
  | nil =>
      simp [insertKV] at h
      exact Or.inr h
  | cons p rest ih =>
      by_cases hp : p.1 = k
      · simp [insertKV, hp] at h
        rcases h with h | h
        · exact Or.inr h
        · exact Or.inl (by simp [h])
      · simp only [insertKV, if_neg hp, List.map_cons, List.mem_cons] at h
        rcases h with h | h
        · exact Or.inl (by simp [h])
        · rcases ih h with hh | hh
          · exact Or.inl (List.mem_cons_of_mem _ hh)
          · exact Or.inr hh

theorem keysNodup_insertKV (l : List (κ × ν)) (k : κ) (v : ν)
    (h : keysNodup l) : keysNodup (insertKV l k v) := by
  induction l with
  | nil => simp [insertKV, keysNodup]
  | cons p rest ih =>
      by_cases hp : p.1 = k
      · subst hp
        simp only [insertKV, if_pos rfl]
        simpa only [keysNodup, List.map_cons] using h
      · simp only [keysNodup, List.map_cons, List.nodup_cons] at h
        simp only [insertKV, if_neg hp, keysNodup, List.map_cons, List.nodup_cons]
        refine ⟨fun hmem => ?_, ih h.2⟩
        rcases keys_insertKV rest k v p.1 hmem with hh | hh
        · exact h.1 hh
        · exact hp hh

theorem eraseKV_sublist (l : List (κ × ν)) (k : κ) : (eraseKV l k).Sublist l := by
  induction l with
  | nil => simp [eraseKV]
  | cons p rest ih =>
      by_cases hp : p.1 = k
      · simp only [eraseKV, if_pos hp]
        exact List.sublist_cons_self p rest
      · simp only [eraseKV, if_neg hp]
        exact List.Sublist.cons₂ p ih

theorem keysNodup_eraseKV (l : List (κ × ν)) (k : κ)
    (h : keysNodup l) : keysNodup (eraseKV l k) := by
  exact ((eraseKV_sublist l k).map Prod.fst).nodup h

theorem lookupKV_eq_none_iff (l : List (κ × ν)) (k : κ) :
    lookupKV l k = none ↔ k ∉ l.map Prod.fst := by
  induction l with
  | nil => simp [lookupKV]
  | cons p rest ih =>
      simp only [lookupKV, List.map_cons, List.mem_cons, not_or]
      by_cases hp : p.1 = k
      · simp [hp]
      · rw [if_neg hp, ih]
        exact ⟨fun h => ⟨fun hh => hp (Eq.symm hh), h⟩, fun h => h.2⟩

theorem lookupKV_eraseKV_self (l : List (κ × ν)) (k : κ)
    (h : keysNodup l) : lookupKV (eraseKV l k) k = none := by
  induction l with
  | nil => simp [eraseKV, lookupKV]
  | cons p rest ih =>
      simp only [keysNodup, List.map_cons, List.nodup_cons] at h
      by_cases hp : p.1 = k
      · subst hp
        simpa [eraseKV, lookupKV_eq_none_iff] using h.1
      · simp only [eraseKV, if_neg hp, lookupKV, if_neg hp]
        exact ih h.2

end AssocLemmas

theorem occ_cons (t a : String) (l : List String) :
    occ t (a :: l) = (if a = t then 1 else 0) + occ t l := by
  by_cases h : a = t <;> simp [occ, List.filter_cons, h, Nat.add_comm]

theorem occ_append (t : String) (l1 l2 : List String) :
    occ t (l1 ++ l2) = occ t l1 + occ t l2 := by
  simp [occ, List.filter_append]

theorem occ_singleton_self (t : String) : occ t [t] = 1 := by
  simp [occ]

theorem occ_pos_iff_mem (t : String) (l : List String) : 0 < occ t l ↔ t ∈ l := by
  induction l with
  | nil => simp [occ]
  | cons a rest ih =>
      by_cases h : a = t
      · rw [occ_cons, if_pos h]
        simp [h]
      · rw [occ_cons, if_neg h, Nat.zero_add, ih, List.mem_cons]
        exact ⟨Or.inr, fun hh => hh.resolve_left (fun he => h (Eq.symm he))⟩

theorem occ_eq_zero_of_not_mem (t : String) (l : List String) (h : t ∉ l) :
    occ t l = 0 := by
  have := (occ_pos_iff_mem t l).not.mpr h
  omega

theorem length_filter_zip (t : String) :
    ∀ (l1 : List String) (l2 : List ℚ), l1.length = l2.length →
      ((l1.zip l2).filter (fun p => p.1 = t)).length = occ t l1
  | [], [], _ => by simp [occ]
  | [], q :: l2, h => by simp at h
  | a :: l1, [], h => by simp at h
  | a :: l1, q :: l2, h => by
      have h' : l1.length = l2.length := by simpa using h
      have ihz := length_filter_zip t l1 l2 h'
      by_cases ha : a = t
      · simp [List.zip_cons_cons, List.filter_cons, ha, occ_cons, ihz]
        omega
      · simp [List.zip_cons_cons, List.filter_cons, ha, occ_cons, ihz]

theorem welfordStep_count (acc : ℚ × ℚ × ℕ) (d : ℚ) :
    (welfordStep acc d).2.2 = acc.2.2 + 1 := rfl

theorem foldTag_cons (tag : String) (p : String × ℚ) (meas : List (String × ℚ))
    (init : ℚ × ℚ × ℕ) :
    foldTag tag (p :: meas) init =
      foldTag tag meas (if p.1 = tag then welfordStep init p.2 else init) := rfl

theorem foldTag_count (tag : String) (meas : List (String × ℚ)) :
    ∀ init : ℚ × ℚ × ℕ,
      (foldTag tag meas init).2.2 =
        init.2.2 + ((meas.filter (fun p => p.1 = tag)).length) := by
  induction meas with
  | nil => intro init; simp [foldTag]
  | cons p rest ih =>
      intro init
      rw [foldTag_cons]
      by_cases hp : p.1 = tag
      · rw [if_pos hp, ih, welfordStep_count]
        simp [List.filter_cons, hp]
        omega
      · rw [if_neg hp, ih]
        simp [List.filter_cons, hp]

theorem initStats_count (d : List (String × (ℚ × ℚ × ℕ))) (tag : String) :
    (initStats d tag).2.2 = dataCount d tag := by
  cases h : lookupKV d tag <;> simp [initStats, dataCount, h]

theorem storeStats_count (r : ℚ × ℚ × ℕ) : (storeStats r).2.2 = r.2.2 := rfl

theorem mem_dedupAdj : ∀ (l : List String) (a : String), a ∈ dedupAdj l ↔ a ∈ l
  | [], a => by simp [dedupAdj]
  | [b], a => by simp [dedupAdj]
  | b :: c :: rest, a => by
      by_cases h : b = c
      · subst h
        rw [show dedupAdj (b :: b :: rest) = dedupAdj (b :: rest) by simp [dedupAdj]]
        rw [mem_dedupAdj (b :: rest) a]
        simp only [List.mem_cons]
        tauto
      · rw [show dedupAdj (b :: c :: rest) = b :: dedupAdj (c :: rest) by
          simp [dedupAdj, h]]
        simp only [List.mem_cons, mem_dedupAdj (c :: rest) a]

theorem nodup_dedupAdj : ∀ l : List String, l.Sorted (· ≤ ·) → (dedupAdj l).Nodup
  | [], _ => by simp [dedupAdj]
  | [a], _ => by simp [dedupAdj]
  | a :: b :: rest, h => by
      rw [List.sorted_cons] at h
      by_cases hab : a = b
      · rw [show dedupAdj (a :: b :: rest) = dedupAdj (b :: rest) by
          simp [dedupAdj, hab]]
        exact nodup_dedupAdj (b :: rest) h.2
      · rw [show dedupAdj (a :: b :: rest) = a :: dedupAdj (b :: rest) by
          simp [dedupAdj, hab]]
        rw [List.nodup_cons]
        refine ⟨fun hmem => ?_, nodup_dedupAdj (b :: rest) h.2⟩
        have hmem' : a ∈ b :: rest := (mem_dedupAdj (b :: rest) a).mp hmem

        rcases List.mem_cons.mp hmem' with hh | hh
        · exact hab hh
        · have hba : b ≤ a := (List.sorted_cons.mp h.2).1 a hh
          have hab' : a ≤ b := h.1 b (List.mem_cons_self b rest)
          exact hab (le_antisymm hab' hba)

theorem mem_uniqueTags (l : List String) (a : String) : a ∈ uniqueTags l ↔ a ∈ l := by
  rw [uniqueTags, mem_dedupAdj]
  exact (List.perm_insertionSort (· ≤ ·) l).mem_iff

theorem nodup_uniqueTags (l : List String) : (uniqueTags l).Nodup :=
  nodup_dedupAdj _ (List.sorted_insertionSort (· ≤ ·) l)

theorem initStats_congr (d d' : List (String × (ℚ × ℚ × ℕ))) (tag : String)
    (h : lookupKV d tag = lookupKV d' tag) : initStats d tag = initStats d' tag := by
  unfold initStats
  rw [h]

theorem aggTag_lookup_ne (meas : List (String × ℚ)) (d : List (String × (ℚ × ℚ × ℕ)))
    (tag tag' : String) (h : tag' ≠ tag) :
    lookupKV (aggTag meas d tag) tag' = lookupKV d tag' :=
  lookupKV_insertKV_ne _ _ _ _ h

theorem foldl_aggTag_lookup_not_mem (meas : List (String × ℚ)) (tag : String) :
    ∀ (ts : List String) (d : List (String × (ℚ × ℚ × ℕ))), tag ∉ ts →
      lookupKV (ts.foldl (aggTag meas) d) tag = lookupKV d tag := by
  intro ts
  induction ts with
  | nil => intro d _; rfl
  | cons t ts ih =>
      intro d h
      rw [List.foldl_cons]
      have hne : tag ≠ t := fun hh => h (hh ▸ List.mem_cons_self t ts)
      rw [ih _ (fun hh => h (List.mem_cons_of_mem _ hh))]
      exact aggTag_lookup_ne meas d t tag hne

theorem foldl_aggTag_lookup_mem (meas : List (String × ℚ)) (tag : String) :
    ∀ (ts : List String) (d : List (String × (ℚ × ℚ × ℕ))), ts.Nodup → tag ∈ ts →
      lookupKV (ts.foldl (aggTag meas) d) tag =
        some (storeStats (foldTag tag meas (initStats d tag))) := by
  intro ts
  induction ts with
  | nil => intro d _ h; cases h
  | cons t ts ih =>
      intro d hnd hmem
      rw [List.foldl_cons]
      by_cases he : tag = t
      · subst he
        rw [foldl_aggTag_lookup_not_mem meas tag ts _ (List.nodup_cons.mp hnd).1]
        unfold aggTag
        rw [lookupKV_insertKV_self]
      · have hmem' : tag ∈ ts := (List.mem_cons.mp hmem).resolve_left he
        rw [ih _ (List.nodup_cons.mp hnd).2 hmem']
        rw [initStats_congr (aggTag meas d t) d tag (aggTag_lookup_ne meas d t tag he)]

theorem foldl_aggTag_isSome (meas : List (String × ℚ)) (tag : String) :
    ∀ (ts : List String) (d : List (String × (ℚ × ℚ × ℕ))),
      (lookupKV d tag).isSome → (lookupKV (ts.foldl (aggTag meas) d) tag).isSome := by
  intro ts
  induction ts with
  | nil => intro d h; exact h
  | cons t ts ih =>
      intro d h
      rw [List.foldl_cons]
      exact ih _ (isSome_lookupKV_insertKV _ _ _ _ h)

theorem aggregate_fst_data (s : Timer) :
    (aggregate s).1.data =
      (uniqueTags s.tags).foldl (aggTag (s.tags.zip s.durations)) s.data := rfl

theorem aggregate_fst_tags (s : Timer) : (aggregate s).1.tags = [] := rfl

theorem aggregate_fst_durations (s : Timer) : (aggregate s).1.durations = [] := rfl

theorem aggregate_fst_tics (s : Timer) : (aggregate s).1.tics = s.tics := rfl

theorem aggregate_fst_verbose (s : Timer) : (aggregate s).1.verbose = s.verbose := rfl

theorem aggregate_snd_fst (s : Timer) : (aggregate s).2.1 = (aggregate s).1.data := rfl

theorem aggregate_warns (s : Timer) :
    (aggregate s).2.2 =
      if s.verbose then s.tics.map (fun t => aggNotStoppedMsg t.1.1) else [] := rfl

theorem aggregate_lookup_of_not_mem (s : Timer) (tag : String) (h : tag ∉ s.tags) :
    lookupKV (aggregate s).1.data tag = lookupKV s.data tag := by
  rw [aggregate_fst_data]
  exact foldl_aggTag_lookup_not_mem _ tag _ _
    (fun hh => h ((mem_uniqueTags s.tags tag).mp hh))

theorem aggregate_lookup_of_mem (s : Timer) (tag : String) (h : tag ∈ s.tags) :
    lookupKV (aggregate s).1.data tag =
      some (storeStats (foldTag tag (s.tags.zip s.durations) (initStats s.data tag))) := by
  rw [aggregate_fst_data]
  exact foldl_aggTag_lookup_mem _ tag _ _ (nodup_uniqueTags _)
    ((mem_uniqueTags _ _).mpr h)

theorem aggregate_dataCount (s : Timer) (tag : String)
    (hlen : s.tags.length = s.durations.length) :
    dataCount (aggregate s).1.data tag = dataCount s.data tag + occ tag s.tags := by
  by_cases h : tag ∈ s.tags
  · have hl := aggregate_lookup_of_mem s tag h
    simp only [dataCount, hl]
    rw [storeStats_count, foldTag_count, initStats_count,
      length_filter_zip tag _ _ hlen]
    rfl
  · have hl := aggregate_lookup_of_not_mem s tag h
    rw [occ_eq_zero_of_not_mem tag _ h]
    simp only [dataCount, hl]
    exact (Nat.add_zero _).symm

theorem aggregate_isSome (s : Timer) (tag : String)
    (h : (lookupKV s.data tag).isSome) :
    (lookupKV (aggregate s).1.data tag).isSome := by
  rw [aggregate_fst_data]
  exact foldl_aggTag_isSome _ tag _ _ h

theorem run_nil (s : Timer) : run s [] = s := rfl

theorem run_cons (s : Timer) (op : Op) (ops : List Op) :
    run s (op :: ops) = run (step s op) ops := rfl

theorem step_len (s : Timer) (op : Op) (h : s.tags.length = s.durations.length) :
    (step s op).tags.length = (step s op).durations.length := by
  cases op with
  | tic tag tid now => simpa [step, tic] using h
  | toc tag tid now =>
      cases hl : lookupKV s.tics (tag, tid) <;> simp [step, toc, hl, h]
  | agg => simp [step, aggregate_fst_tags, aggregate_fst_durations]
  | reset => simp [step, reset]

theorem run_len_inv : ∀ (ops : List Op) (s : Timer),
    s.tags.length = s.durations.length →
    (run s ops).tags.length = (run s ops).durations.length := by
  intro ops
  induction ops with
  | nil => intro s h; exact h
  | cons op ops ih =>
      intro s h
      rw [run_cons]
      exact ih _ (step_len s op h)

theorem step_ticsNodup (s : Timer) (op : Op) (h : keysNodup s.tics) :
    keysNodup (step s op).tics := by
  cases op with
  | tic tag tid now => exact keysNodup_insertKV _ _ _ h
  | toc tag tid now =>
      cases hl : lookupKV s.tics (tag, tid)
      · simpa [step, toc, hl] using h
      · simpa [step, toc, hl] using keysNodup_eraseKV _ _ h
  | agg => simpa [step, aggregate_fst_tics] using h
  | reset => simp [step, reset, keysNodup]

theorem run_ticsNodup : ∀ (ops : List Op) (s : Timer),
    keysNodup s.tics → keysNodup (run s ops).tics := by
  intro ops
  induction ops with
  | nil => intro s h; exact h
  | cons op ops ih =>
      intro s h
      rw [run_cons]
      exact ih _ (step_ticsNodup s op h)

theorem stepG_fst (p : Timer × (String → ℕ)) (op : Op) :
    (stepG p op).1 = step p.1 op := by
  cases op <;> rfl

theorem runG_fst : ∀ (ops : List Op) (p : Timer × (String → ℕ)),
    (runG p ops).1 = run p.1 ops := by
  intro ops
  induction ops with
  | nil => intro p; rfl
  | cons op ops ih =>
      intro p
      show (runG (stepG p op) ops).1 = run p.1 (op :: ops)
      rw [ih, stepG_fst, run_cons]

theorem stepG_inv (p : Timer × (String → ℕ)) (op : Op) (h : InvCG p.1 p.2) :
    InvCG (stepG p op).1 (stepG p op).2 := by
  obtain ⟨s, g⟩ := p
  cases op with
  | tic tag tid now =>
      exact ⟨by simpa [stepG, step, tic] using h.1,
        fun t => by simpa [stepG, step, tic] using h.2 t⟩
  | toc tag tid now =>
      cases hl : lookupKV s.tics (tag, tid)
      · exact ⟨by simpa [stepG, step, toc, hl] using h.1,
          fun t => by simpa [stepG, step, toc, hl] using h.2 t⟩
      · refine ⟨?_, fun t => by simpa [stepG, step, toc, hl] using h.2 t⟩
        have := h.1
        simp [stepG, step, toc, hl, this]
  | agg =>
      refine ⟨by simp [stepG, aggregate_fst_tags, aggregate_fst_durations], ?_⟩
      intro t
      constructor
      · by_cases hm : t ∈ s.tags
        · constructor
          · intro _
            have : 0 < occ t s.tags := (occ_pos_iff_mem t s.tags).mpr hm
            simp only [stepG]
            omega
          · intro _
            simp only [stepG]
            rw [aggregate_lookup_of_mem s t hm]
            rfl
        · have hl := aggregate_lookup_of_not_mem s t hm
          have ho := occ_eq_zero_of_not_mem t s.tags hm
          simp only [stepG, hl, ho, Nat.add_zero]
          exact (h.2 t).1
      · simp only [stepG]
        rw [aggregate_dataCount s t h.1, (h.2 t).2]
  | reset =>
      refine ⟨by simp [stepG, reset], ?_⟩
      intro t
      simp [stepG, reset, lookupKV, dataCount]

theorem runG_inv : ∀ (ops : List Op) (p : Timer × (String → ℕ)),
    InvCG p.1 p.2 → InvCG (runG p ops).1 (runG p ops).2 := by
  intro ops
  induction ops with
  | nil => intro p h; exact h
  | cons op ops ih =>
      intro p h
      show InvCG (runG (stepG p op) ops).1 (runG (stepG p op) ops).2
      exact ih _ (stepG_inv p op h)

theorem initTimer_inv (v : Bool) : InvCG (initTimer v) (fun _ => 0) := by
  refine ⟨rfl, fun tag => ?_⟩
  simp [initTimer, lookupKV, dataCount]

/-- C1: the claim says the second component of the stored record equals the Welford sum
of squared deviations (never the variance).  Counter-evaluation: after tic/toc pairs for
tag "a" with durations 0, 0 and 3 ns and one `aggregate()`, the code stores
`(mean, sst / max(count-1,1), count) = (1, 3, 3)` — the second component is the sample
variance 3, while the Welford sum of squared deviations of the very same fold is 6.
(The code is inconsistent with itself: line 151 reads this field back as `sst` on the
next `aggregate`, and the spec's recovery formula would divide it by `count-1` again.) -/
theorem stored_second_field_is_variance :
    lookupKV (run (initTimer true)
      [Op.tic "a" 0 0, Op.toc "a" 0 0, Op.tic "a" 0 10, Op.toc "a" 0 10,
       Op.tic "a" 0 20, Op.toc "a" 0 23, Op.agg]).data "a" = some (1, 3, 3) ∧
    (foldTag "a" [("a", 0), ("a", 0), ("a", 3)] (0, 0, 0)).2.1 = 6 ∧
    (3 : ℚ) = 6 / ((3 : ℕ) - 1 : ℕ) := by
  refine ⟨?_, by norm_num [foldTag, welfordStep], by norm_num⟩
  norm_num [run, step, tic, toc, aggregate, aggTag, foldTag, welfordStep, initStats,
    storeStats, uniqueTags, dedupAdj, lookupKV, insertKV, eraseKV, initTimer,
    List.insertionSort, List.orderedInsert]

/-- C2: the claim says the online fold matches the two-pass mean and sum of squared
deviations over exact arithmetic even when the measurements are split across several
`aggregate()` calls.  Counter-evaluation: tag "a" gets durations 0, 0, 3 in a first
`aggregate` (which stores the variance 3 in the sst slot), then duration 1 in a second
`aggregate`.  The resumed fold produces sst 3 and the stored record becomes
`(1, 1, 4)`, while the two-pass sum of squared deviations of `[0,0,3,1]` is 6 (the
two-pass mean, 1, still agrees). -/
theorem cross_aggregate_welford_mismatch :
    lookupKV (run (initTimer true)
      [Op.tic "a" 0 0, Op.toc "a" 0 0, Op.tic "a" 0 10, Op.toc "a" 0 10,
       Op.tic "a" 0 20, Op.toc "a" 0 23, Op.agg,
       Op.tic "a" 0 30, Op.toc "a" 0 31, Op.agg]).data "a" = some (1, 1, 4) ∧
    foldTag "a" [("a", 1)] (1, 3, 3) = (1, 3, 4) ∧
    listMean [0, 0, 3, 1] = 1 ∧
    twoPassSst [0, 0, 3, 1] = 6 := by
  refine ⟨?_, by norm_num [foldTag, welfordStep], by norm_num [listMean],
    by norm_num [twoPassSst, listMean]⟩
  norm_num [run, step, tic, toc, aggregate, aggTag, foldTag, welfordStep, initStats,
    storeStats, uniqueTags, dedupAdj, lookupKV, insertKV, eraseKV, initTimer,
    List.insertionSort, List.orderedInsert]

/-- C3: for every call sequence since construction, a persistent record for a tag
exists iff at least one completed measurement has been folded for that tag since
construction or the last `reset`, and the record's count field equals the number of
measurements folded for that tag in that period.  `runG` is `run` instrumented with
the fold counter (first conjunct: the program state is the same), so the property is
preserved by every `tic`, `toc`, `aggregate` and `reset` call. -/
theorem record_count_matches_folds (v : Bool) (ops : List Op) (tag : String) :
    (runG (initTimer v, fun _ => 0) ops).1 = run (initTimer v) ops ∧
    ((lookupKV (runG (initTimer v, fun _ => 0) ops).1.data tag).isSome ↔
      0 < (runG (initTimer v, fun _ => 0) ops).2 tag) ∧
    dataCount (runG (initTimer v, fun _ => 0) ops).1.data tag =
      (runG (initTimer v, fun _ => 0) ops).2 tag := by
  have hinv := runG_inv ops (initTimer v, fun _ => 0) (initTimer_inv v)
  exact ⟨runG_fst ops _, (hinv.2 tag).1, (hinv.2 tag).2⟩

/-- C4: in any reachable state, `tic(tag)` immediately followed by `toc(tag)` in the
same context removes the in-flight entry, appends exactly one `(tag, duration)` pair
with duration `t2 - t1 ≥ 0` (monotonic clock: `t1 ≤ t2`), and the count a subsequent
`aggregate()` reports for the tag is larger by exactly one than without the pair. -/
theorem tic_toc_pair_effect (v : Bool) (ops : List Op) (tag : String) (tid : ℕ)
    (t1 t2 : ℚ) (h : t1 ≤ t2) :
    lookupKV ((toc tag tid t2 (tic tag tid t1 (run (initTimer v) ops))).1).tics
        (tag, tid) = none ∧
    ((toc tag tid t2 (tic tag tid t1 (run (initTimer v) ops))).1).tags
        = (run (initTimer v) ops).tags ++ [tag] ∧
    ((toc tag tid t2 (tic tag tid t1 (run (initTimer v) ops))).1).durations
        = (run (initTimer v) ops).durations ++ [t2 - t1] ∧
    0 ≤ t2 - t1 ∧
    dataCount (aggregate ((toc tag tid t2 (tic tag tid t1
        (run (initTimer v) ops))).1)).2.1 tag
      = dataCount (aggregate (run (initTimer v) ops)).2.1 tag + 1 := by
  have hN : keysNodup (run (initTimer v) ops).tics :=
    run_ticsNodup ops (initTimer v) (by simp [initTimer, keysNodup])
  have hlen : (run (initTimer v) ops).tags.length
      = (run (initTimer v) ops).durations.length := run_len_inv ops (initTimer v) rfl
  set s := run (initTimer v) ops with hs
  have hlk : lookupKV (insertKV s.tics (tag, tid) t1) (tag, tid) = some t1 :=
    lookupKV_insertKV_self _ _ _
  have hdata : ((toc tag tid t2 (tic tag tid t1 s)).1).data = s.data := by
    simp [toc, tic, hlk]
  have htags : ((toc tag tid t2 (tic tag tid t1 s)).1).tags = s.tags ++ [tag] := by
    simp [toc, tic, hlk]
  have hdurs : ((toc tag tid t2 (tic tag tid t1 s)).1).durations
      = s.durations ++ [t2 - t1] := by
    simp [toc, tic, hlk]
  have hlen2 : ((toc tag tid t2 (tic tag tid t1 s)).1).tags.length
      = ((toc tag tid t2 (tic tag tid t1 s)).1).durations.length := by
    rw [htags, hdurs]
    simp [hlen]
  refine ⟨?_, htags, hdurs, sub_nonneg.mpr h, ?_⟩
  · have : ((toc tag tid t2 (tic tag tid t1 s)).1).tics
        = eraseKV (insertKV s.tics (tag, tid) t1) (tag, tid) := by
      simp [toc, tic, hlk]
    rw [this]
    exact lookupKV_eraseKV_self _ _ (keysNodup_insertKV _ _ _ hN)
  · rw [aggregate_snd_fst, aggregate_snd_fst,
      aggregate_dataCount _ tag hlen2, aggregate_dataCount s tag hlen,
      hdata, htags, occ_append, occ_singleton_self]
    omega

theorem tic_toc_pair_effect_witness :
    (0 : ℚ) ≤ 5 ∧
    (lookupKV ((toc "a" 0 5 (tic "a" 0 0 (run (initTimer true) []))).1).tics
        ("a", 0) = none ∧
    ((toc "a" 0 5 (tic "a" 0 0 (run (initTimer true) []))).1).tags
        = (run (initTimer true) []).tags ++ ["a"] ∧
    ((toc "a" 0 5 (tic "a" 0 0 (run (initTimer true) []))).1).durations
        = (run (initTimer true) []).durations ++ [5 - 0] ∧
    (0 : ℚ) ≤ 5 - 0 ∧
    dataCount (aggregate ((toc "a" 0 5 (tic "a" 0 0
        (run (initTimer true) []))).1)).2.1 "a"
      = dataCount (aggregate (run (initTimer true) [])).2.1 "a" + 1) :=
  ⟨by norm_num, tic_toc_pair_effect true [] "a" 0 0 5 (by norm_num)⟩

/-- C5: a `toc` whose key `(tag, tid)` has no in-flight entry changes nothing — not the
in-flight set, not the completed-measurement list, not the persistent table — and emits
a warning naming the tag exactly when `verbose` is set. -/
theorem toc_unmatched_noop (s : Timer) (tag : String) (tid : ℕ) (now : ℚ)
    (h : lookupKV s.tics (tag, tid) = none) :
    (toc tag tid now s).1 = s ∧
    (toc tag tid now s).2 = (if s.verbose then [tocMissingMsg tag] else []) ∧
    ∃ p q, tocMissingMsg tag = p ++ (tag ++ q) := by
  refine ⟨by simp [toc, h], by simp [toc, h],
    ⟨"Timer \"", "\" not started yet. \n" ++
      ("Use tic(\"" ++ (tag ++ "\") to start the timer.")), rfl⟩⟩

theorem toc_unmatched_noop_witness :
    lookupKV (initTimer true).tics ("a", 0) = none ∧
    ((toc "a" 0 7 (initTimer true)).1 = initTimer true ∧
    (toc "a" 0 7 (initTimer true)).2 =
      (if (initTimer true).verbose then [tocMissingMsg "a"] else []) ∧
    ∃ p q, tocMissingMsg "a" = p ++ ("a" ++ q)) :=
  ⟨rfl, toc_unmatched_noop (initTimer true) "a" 0 7 rfl⟩

/-- C6: `aggregate` clears the completed-measurement vectors, leaves the in-flight set
untouched (entries are only reported: one warning per in-flight entry when `verbose`,
none otherwise), and never removes an existing tag's record from the persistent
table. -/
theorem aggregate_frame (s : Timer) :
    (aggregate s).1.tags = [] ∧
    (aggregate s).1.durations = [] ∧
    (aggregate s).1.tics = s.tics ∧
    ((aggregate s).2.2).length = (if s.verbose then s.tics.length else 0) ∧
    ∀ tag, (lookupKV s.data tag).isSome → (lookupKV (aggregate s).1.data tag).isSome := by
  refine ⟨rfl, rfl, rfl, ?_, fun tag hh => aggregate_isSome s tag hh⟩
  rw [aggregate_warns]
  cases s.verbose <;> simp

/-- C7: `reset()` unconditionally empties the in-flight set, the completed-measurement
vectors and the persistent table (only `verbose` survives), and an `aggregate()` right
after a `reset()` returns an empty table and warns about nothing. -/
theorem reset_clears_all (s : Timer) :
    (reset s).tics = [] ∧ (reset s).tags = [] ∧ (reset s).durations = [] ∧
    (reset s).data = [] ∧ (reset s).verbose = s.verbose ∧
    (aggregate (reset s)).2.1 = [] ∧ (aggregate (reset s)).2.2 = [] := by
  refine ⟨rfl, rfl, rfl, rfl, rfl, rfl, ?_⟩
  rw [aggregate_warns]
  cases hb : s.verbose <;> simp [reset, hb]

/-- C8: a second `tic` on a key that is already in flight replaces that entry's start
timestamp with the new one and changes nothing else (the source's `tic` contains no
`warn` call, so no warning can be produced); the earlier start time is lost. -/
theorem duplicate_tic_overwrites (s : Timer) (tag : String) (tid : ℕ) (t0 t1 : ℚ)
    (h : lookupKV s.tics (tag, tid) = some t0) :
    lookupKV (tic tag tid t1 s).tics (tag, tid) = some t1 ∧
    (∀ k, k ≠ (tag, tid) → lookupKV (tic tag tid t1 s).tics k = lookupKV s.tics k) ∧
    (tic tag tid t1 s).tags = s.tags ∧
    (tic tag tid t1 s).durations = s.durations ∧
    (tic tag tid t1 s).data = s.data ∧
    (tic tag tid t1 s).verbose = s.verbose :=
  ⟨lookupKV_insertKV_self _ _ _,
   fun k hk => lookupKV_insertKV_ne _ _ _ _ hk, rfl, rfl, rfl, rfl⟩

theorem duplicate_tic_overwrites_witness :
    lookupKV (Timer.mk [(("a", 0), 2)] [] [] [] true).tics ("a", 0) = some 2 ∧
    (lookupKV (tic "a" 0 5 (Timer.mk [(("a", 0), 2)] [] [] [] true)).tics ("a", 0)
        = some 5 ∧
    (∀ k, k ≠ ("a", 0) →
      lookupKV (tic "a" 0 5 (Timer.mk [(("a", 0), 2)] [] [] [] true)).tics k
        = lookupKV (Timer.mk [(("a", 0), 2)] [] [] [] true).tics k) ∧
    (tic "a" 0 5 (Timer.mk [(("a", 0), 2)] [] [] [] true)).tags
        = (Timer.mk [(("a", 0), 2)] [] [] [] true).tags ∧
    (tic "a" 0 5 (Timer.mk [(("a", 0), 2)] [] [] [] true)).durations
        = (Timer.mk [(("a", 0), 2)] [] [] [] true).durations ∧
    (tic "a" 0 5 (Timer.mk [(("a", 0), 2)] [] [] [] true)).data
        = (Timer.mk [(("a", 0), 2)] [] [] [] true).data ∧
    (tic "a" 0 5 (Timer.mk [(("a", 0), 2)] [] [] [] true)).verbose
        = (Timer.mk [(("a", 0), 2)] [] [] [] true).verbose) :=
  ⟨by decide, duplicate_tic_overwrites (Timer.mk [(("a", 0), 2)] [] [] [] true)
    "a" 0 2 5 (by decide)⟩

/-- C10: in every state reachable by any call sequence, the tags vector and the
durations vector have the same length (each `toc` appends one entry to each, `aggregate`
and `reset` clear both, `tic` touches neither), so `aggregate`'s access `durations[j]`
is in bounds for every `j < tags.size()`. -/
theorem tags_durations_lockstep (v : Bool) (ops : List Op) :
    (run (initTimer v) ops).tags.length = (run (initTimer v) ops).durations.length ∧
    ∀ j, j < (run (initTimer v) ops).tags.length →
      j < (run (initTimer v) ops).durations.length := by
  have h := run_len_inv ops (initTimer v) rfl
  exact ⟨h, fun j hj => h ▸ hj⟩
